import Mathlib

/-!
Shallow embedding of the pippin repository core, as needed to check the
specification claims.  The embedding covers:

* `read_head` from `src/detail/mod.rs` (binary header codec);
* `SeqClassifier`, `PartInfo`, `SeqRepo::set_classifier`, `classify`,
  `fallback`, `divide`, `write_buf`/`read_buf` from `examples/sequences.rs`.

Machine integers are modelled as `Nat`; `u32` arithmetic that can wrap in the
source (the `median - 1` subtraction and `ver + 1` increments, which use
release-mode wrapping semantics in Rust) is modelled with an explicit
`% 4294967296`.  Byte streams are `List Nat` (each entry one byte).

Types from the pippin library crate that are not present under `src/`
(`PartId`, `PartState`, `ClassifyFallback`, `RepoDivideError`) are modelled
from the spec; each such definition carries a doc comment saying so.
-/

deriving instance DecidableEq for Except

def u32mod : Nat := 4294967296

def u32max : Nat := 4294967295

/-- `Sequence` from `examples/sequences.rs`: a vector of scalars.  The scalar
type `f64` is abstracted into a type parameter `α`, since every operation the
claims touch depends only on the length of the vector. -/
structure Sequence (α : Type) where
  v : List α
deriving DecidableEq

/-- `PartInfo` from `examples/sequences.rs`: per-partition bookkeeping kept by
the classifier.  `PartId` values are modelled as plain `Nat` partition numbers
(`PartId::from_num` / `into_num` are the identity in this model). -/
structure PartInfo where
  max_part_id : Nat
  ver : Nat
  min_len : Nat
  max_len : Nat
deriving DecidableEq

/-- `SeqClassifier` from `examples/sequences.rs`: for each class, the minimum
length of sequences in the class together with the partition identifier,
ordered by minimum length. -/
structure SeqClassifier where
  classes : List (Nat × Nat)
deriving DecidableEq

/-- The classifier-relevant state of `SeqRepo`: the classifier view `csf` and
the `parts` table.  The `HashMap<PartId, PartInfo>` is modelled as an
association list with unique keys; insertion replaces in place. -/
structure SeqRepoState where
  csf : SeqClassifier
  parts : List (Nat × PartInfo)
deriving DecidableEq

/-- Model of `HashMap::get`. -/
def mapGet : List (Nat × PartInfo) → Nat → Option PartInfo
  | [], _ => none
  | e :: rest, id => if e.1 = id then some e.2 else mapGet rest id

/-- Model of `HashMap::insert`: replace the entry in place when the key is
present, otherwise append. -/
def mapInsert : List (Nat × PartInfo) → Nat → PartInfo → List (Nat × PartInfo)
  | [], id, pi => [(id, pi)]
  | e :: rest, id, pi =>
    if e.1 = id then (id, pi) :: rest else e :: mapInsert rest id pi

/-- `SeqRepo::set_classifier` from `examples/sequences.rs`: collect
`(min_len, part_id)` for every partition whose range is non-empty
(`max_len > min_len`) and sort by the minimum length. -/
def set_classifier (parts : List (Nat × PartInfo)) : SeqClassifier :=
  ⟨List.insertionSort (fun a b => a.1 ≤ b.1)
    (parts.filterMap (fun e =>
      if e.2.min_len < e.2.max_len then some (e.2.min_len, e.1) else none))⟩

/-- Rust `slice::binary_search_by` specialised to `classes` with the comparator
`x.0.cmp(&len)`, as used by `SeqClassifier::classify`.  `base`/`lim` follow the
source algorithm: probe `ix = base + lim/2`; on equality return `Ok(ix)`; when
the probed key is less than `len` continue right of the probe with
`lim := (lim-1)/2`, otherwise keep `base` with `lim := lim/2`; when `lim`
reaches 0 return `Err(base)` (the insertion point).  The recursion is driven
by a structural `fuel` argument so that the definition reduces in the kernel;
since `lim` strictly decreases on every iteration, any `fuel ≥ lim` gives the
behaviour of the source loop, and the `fuel = 0` case (only reachable with
`lim = 0`) coincides with the loop-exit case. -/
def bsGoF (classes : List (Nat × Nat)) (len : Nat) : Nat → Nat → Nat → Sum Nat Nat
  | 0, base, _ => Sum.inr base
  | fuel + 1, base, lim =>
    if lim = 0 then Sum.inr base
    else
      let ix := base + lim / 2
      if (classes.getD ix (0, 0)).1 = len then Sum.inl ix
      else if (classes.getD ix (0, 0)).1 < len then
        bsGoF classes len fuel (ix + 1) ((lim - 1) / 2)
      else
        bsGoF classes len fuel base (lim / 2)

def bsGo (classes : List (Nat × Nat)) (len base lim : Nat) : Sum Nat Nat :=
  bsGoF classes len lim base lim

/-- `SeqClassifier::classify` from `examples/sequences.rs`: binary-search the
sorted class table on the element length; an exact match `Ok(i)` selects class
`i`; otherwise `Err(i)` with `i = 0` yields `None` and `Err(i)` with `i > 0`
selects class `i - 1`. -/
def classify (csf : SeqClassifier) (elt : Sequence α) : Option Nat :=
  let len := elt.v.length
  match bsGo csf.classes len 0 csf.classes.length with
  | Sum.inl i => some ((csf.classes.getD i (0, 0)).2)
  | Sum.inr i =>
    if i = 0 then none else some ((csf.classes.getD (i - 1) (0, 0)).2)

/-- Modelled from the spec: `ClassifyFallback` lives in the pippin library
crate, which is not under `src/`.  The spec lists the fallback policies
"fail", "assign to a default partition" and "create new partition". -/
inductive ClassifyFallback
  | Fail
  | Default (pid : Nat)
  | NewPartition
deriving DecidableEq

/-- `SeqClassifier::fallback` from `examples/sequences.rs`: always `Fail`. -/
def fallback (_csf : SeqClassifier) : ClassifyFallback :=
  ClassifyFallback.Fail

/-- Modelled from the spec: `PartState` lives in the pippin library crate,
which is not under `src/`.  The spec describes a partition state as an
immutable mapping from element identifiers to elements; `num_avail` is the
number of available elements and `elt_map` iterates the mapping.  The
(unspecified) iteration order of the map is fixed here as the list order. -/
structure PartState (α : Type) where
  part_id : Nat
  elts : List (Nat × Sequence α)
deriving DecidableEq

def PartState.num_avail (p : PartState α) : Nat := p.elts.length

def PartState.elt_map (p : PartState α) : List (Nat × Sequence α) := p.elts

/-- The sample of element lengths taken by `SeqRepo::divide`: the lengths of
the first `min(999, num_avail)` elements in iteration order (the source loop
pushes each length and breaks once 999 are collected). -/
def sampleLens (part : PartState α) : List Nat :=
  (part.elt_map.take 999).map (fun e => e.2.v.length)

/-- The sampled lengths after `lens.sort()`.  The source uses the standard
sort on `u32`; any correct sort gives the same result on `Nat` keys, so it is
modelled with insertion sort. -/
def sortedLens (part : PartState α) : List Nat :=
  List.insertionSort (fun a b => a ≤ b) (sampleLens part)

/-- The median picked by `SeqRepo::divide`: `lens[lens.len() / 2]` after
sorting.  On the success path the sample is non-empty, so the `getD` default
is never consulted. -/
def divideMedian (part : PartState α) : Nat :=
  (sortedLens part).getD ((sortedLens part).length / 2) 0

/-- Modelled from the spec: `RepoDivideError` lives in the pippin library
crate, which is not under `src/`.  The spec names `NotSubdivisible` and a
generic message variant; `panicked` additionally models a failure of the
`assert!(seq.v.len() <= u32::MAX)` in `divide` (a Rust panic, which the source
expresses outside the `Result` type). -/
inductive RepoDivideError
  | NotSubdivisible
  | msg (s : String)
  | panicked
deriving DecidableEq

/-- The version chosen for a freshly inserted `PartInfo` in `divide`:
`self.parts.get(&id).map_or(0, |pi| pi.ver + 1)`, with wrapping `u32`
increment. -/
def divideVer (parts : List (Nat × PartInfo)) (n : Nat) : Nat :=
  match mapGet parts n with
  | some p => (p.ver + 1) % u32mod
  | none => 0

/-- The first new `PartInfo` created by `divide`: child identifiers up to
`num2 - 1`, the old lower bound, and upper bound `median - 1` (wrapping `u32`
subtraction). -/
def divideInfo1 (s : SeqRepoState) (old_num max_num min_len median : Nat) :
    PartInfo :=
  ⟨old_num + 1 + (max_num - old_num) / 2 - 1, divideVer s.parts (old_num + 1),
    min_len, (median + u32max) % u32mod⟩

/-- The second new `PartInfo` created by `divide`: child identifiers up to
`max_num`, lower bound `median`, and the old upper bound.  Its version is
looked up after the first insertion, as in the source. -/
def divideInfo2 (s : SeqRepoState) (old_num min_len max_len max_num median : Nat) :
    PartInfo :=
  ⟨max_num,
    divideVer (mapInsert s.parts (old_num + 1)
      (divideInfo1 s old_num max_num min_len median))
      (old_num + 1 + (max_num - old_num) / 2),
    median, max_len⟩

/-- The state update performed by the success path of `SeqRepo::divide`
(steps 2 and 3 of the source): insert the two new `PartInfo` entries, retire
the old entry by collapsing its range (`max_len := min_len`) and bumping its
version, then recompute the classifier. -/
def divideCore (s : SeqRepoState) (old_num min_len max_len max_num median : Nat) :
    SeqRepoState :=
  let num2 := old_num + 1 + (max_num - old_num) / 2
  let parts1 := mapInsert s.parts (old_num + 1)
    (divideInfo1 s old_num max_num min_len median)
  let parts2 := mapInsert parts1 num2
    (divideInfo2 s old_num min_len max_len max_num median)
  let parts3 := match mapGet parts2 old_num with
    | some p => mapInsert parts2 old_num
        ⟨old_num, (p.ver + 1) % u32mod, p.min_len, p.min_len⟩
    | none => parts2
  { csf := set_classifier parts3, parts := parts3 }

/-- `SeqRepo::divide` from `examples/sequences.rs`.  The `&mut self` receiver
is made explicit: the result pairs the repository state after the call with
the `Result` value.  Every error return in the source happens before any
mutation of `self`, so the error paths return the input state unchanged.
`median - 1` inside `divideCore` uses wrapping `u32` subtraction, modelled as
`(median + u32max) % u32mod`. -/
def divide (s : SeqRepoState) (part : PartState α) :
    SeqRepoState × Except RepoDivideError (List Nat × List Nat) :=
  if part.num_avail < 1 then (s, Except.error RepoDivideError.NotSubdivisible)
  else if (sampleLens part).all (fun l => l ≤ u32max) then
    match mapGet s.parts part.part_id with
    | none => (s, Except.error (RepoDivideError.msg "missing info"))
    | some pi =>
      if pi.max_part_id < part.part_id + 2 then
        (s, Except.error RepoDivideError.NotSubdivisible)
      else
        let num1 := part.part_id + 1
        let num2 := num1 + (pi.max_part_id - part.part_id) / 2
        (divideCore s part.part_id pi.min_len pi.max_len pi.max_part_id
          (divideMedian part),
         Except.ok ([num1, num2], []))
  else
    (s, Except.error RepoDivideError.panicked)

/-- The 8-byte classifier block tag "SeqCSF01" used by
`SeqRepo::write_buf` / `read_buf`, as ASCII byte values. -/
def tagSeqCSF01 : List Nat := [83, 101, 113, 67, 83, 70, 48, 49]

/-- Error kinds of `SeqRepo::read_buf` (the source uses string messages; the
kinds are what the claims talk about). -/
inductive BufError
  | tooShort
  | badTag
  | wrongLength
deriving DecidableEq

/-- Little-endian `u32` read of the first four bytes of a list (used only at
positions where the length check already guarantees four bytes exist). -/
def readU32LE (l : List Nat) : Nat :=
  l.getD 0 0 + 256 * (l.getD 1 0 + 256 * (l.getD 2 0 + 256 * l.getD 3 0))

/-- Little-endian `u64` read of the first eight bytes of a list. -/
def readU64LE (l : List Nat) : Nat :=
  readU32LE l + 4294967296 * readU32LE (l.drop 4)

/-- Parse `n` fixed 28-byte classifier records (`part_id : u64`,
`max_part_id : u64`, `ver : u32`, `min_len : u32`, `max_len : u32`, all
little-endian) from a byte list, as done by the loop in `SeqRepo::read_buf`.
`PartId::try_from` is from the pippin library crate, which is not under
`src/`; the spec does not constrain which values are valid identifiers, so
validation is modelled as accepting every value (the claims do not depend on
it). -/
def parseRecords : List Nat → Nat → List (Nat × PartInfo)
  | _, 0 => []
  | l, n + 1 =>
    (readU64LE l,
      ⟨readU64LE (l.drop 8), readU32LE (l.drop 16), readU32LE (l.drop 20),
        readU32LE (l.drop 24)⟩) :: parseRecords (l.drop 28) n

/-- The per-record update of the `parts` table in `SeqRepo::read_buf`: an
occupied entry is replaced only when the incoming version is strictly greater
than the stored one; a vacant entry is inserted. -/
def applyRecord (parts : List (Nat × PartInfo)) (r : Nat × PartInfo) :
    List (Nat × PartInfo) :=
  match mapGet parts r.1 with
  | some pi => if pi.ver < r.2.ver then mapInsert parts r.1 r.2 else parts
  | none => mapInsert parts r.1 r.2

/-- `SeqRepo::read_buf` from `examples/sequences.rs`.  The `&mut self`
receiver is explicit: the result pairs the state after the call with the
error, if any.  The three validation errors all happen before any mutation. -/
def read_buf (s : SeqRepoState) (buf : List Nat) : SeqRepoState × Option BufError :=
  if buf.length < 12 then (s, some BufError.tooShort)
  else if buf.take 8 ≠ tagSeqCSF01 then (s, some BufError.badTag)
  else
    let n := readU32LE (buf.drop 8)
    if buf.length ≠ 12 + 28 * n then (s, some BufError.wrongLength)
    else
      let parts2 := (parseRecords (buf.drop 12) n).foldl applyRecord s.parts
      ({ csf := set_classifier parts2, parts := parts2 }, none)

/-- Error kinds of `read_head` in `src/detail/mod.rs` (the source uses
`io::Error` with string messages; the kinds are what the claims talk
about). -/
inductive HeadError
  | truncated
  | badMagic
  | unknownChecksum
  | badLengthCode
  | unexpectedSection
deriving DecidableEq

/-- The 16-byte magic "PIPPINSS20150924" checked by `read_head`. -/
def pippinMagic : List Nat :=
  [80, 73, 80, 80, 73, 78, 83, 83, 50, 48, 49, 53, 48, 57, 50, 52]

/-- The 16-byte header section "HSUM SHA-2 256  " that terminates the header:
the tag `HSUM` followed by the only supported checksum algorithm name. -/
def hsumBlock : List Nat :=
  [72, 83, 85, 77, 32, 83, 72, 65, 45, 50, 32, 50, 53, 54, 32, 32]

/-- Model of the `fill` helper in `read_head` for a 16-byte buffer: return the
next 16 bytes and the rest of the stream, or `none` when the stream ends
early (the source then reports a corruption error). -/
def fill16 (stream : List Nat) : Option (List Nat × List Nat) :=
  if 16 ≤ stream.length then some (stream.take 16, stream.drop 16) else none

theorem fill16_length {s b r : List Nat} (h : fill16 s = some (b, r)) :
    r.length < s.length := by
  unfold fill16 at h
  split at h
  · cases h
    simp only [List.length_drop]
    omega
  · cases h

/-- Decode the length-code character of a `Q` header section: `0`-`9` map to
0-9 and `A`-`Z` map to 10-35; anything else is invalid. -/
def lengthCode (b : Nat) : Option Nat :=
  if 48 ≤ b ∧ b ≤ 57 then some (b - 48)
  else if 65 ≤ b ∧ b ≤ 90 then some (b + 10 - 65)
  else none

/-- The header-section loop of `read_head`.  Each iteration reads one 16-byte
block.  A block starting with `H` is either the terminating `HSUM` section
(whose algorithm name must be " SHA-2 256  ") or is ignored.  A block starting
with `Q` has its length code validated; the source then allocates
`qbuf` with `reserve_exact(16 * x)` and extends it with the 16 bytes already
read, so `qbuf.len()` is 16 and the subsequent fill of `qbuf[16..]` is a fill
of an empty slice that reads nothing: no further bytes of the section are
consumed.  Any other block is an error.  Returns the unread rest of the
stream.
The recursion is driven by a structural `fuel` argument so that the
definition reduces in the kernel: every iteration consumes 16 bytes of the
stream, so any `fuel ≥ stream.length` gives the behaviour of the source loop,
and the `fuel = 0` case (only reachable with an empty stream) coincides with
the truncation error that `fill` reports on an empty stream. -/
def readHeadLoopF : Nat → List Nat → Except HeadError (List Nat)
  | 0, _ => Except.error HeadError.truncated
  | fuel + 1, stream =>
    match fill16 stream with
    | none => Except.error HeadError.truncated
    | some (buf, rest) =>
      if buf.getD 0 0 = 72 then
        if buf.take 4 = [72, 83, 85, 77] then
          if buf.drop 4 = [32, 83, 72, 65, 45, 50, 32, 50, 53, 54, 32, 32] then
            Except.ok rest
          else Except.error HeadError.unknownChecksum
        else readHeadLoopF fuel rest
      else if buf.getD 0 0 = 81 then
        match lengthCode (buf.getD 1 0) with
        | none => Except.error HeadError.badLengthCode
        | some _ => readHeadLoopF fuel rest
      else Except.error HeadError.unexpectedSection

def readHeadLoop (stream : List Nat) : Except HeadError (List Nat) :=
  readHeadLoopF stream.length stream

/-- `read_head` from `src/detail/mod.rs`: read and check the 16-byte magic,
read the 16-byte repository name, then run the header-section loop.  Returns
the repository name together with the bytes of the stream that were never
read.  The source wraps the reader in a checksum-accumulating `SumReader`
(whose module is not under `src/`), but the accumulated digest is never used:
the source ends with the comment "TODO: read checksum and compare to above"
and returns without reading or checking the trailing checksum. -/
def read_head (stream : List Nat) : Except HeadError (List Nat × List Nat) :=
  match fill16 stream with
  | none => Except.error HeadError.truncated
  | some (buf, rest) =>
    if buf ≠ pippinMagic then Except.error HeadError.badMagic
    else
      match fill16 rest with
      | none => Except.error HeadError.truncated
      | some (name, rest2) =>
        match readHeadLoop rest2 with
        | Except.error e => Except.error e
        | Except.ok rest3 => Except.ok (name, rest3)

theorem fill16_append (b r : List Nat) (hb : b.length = 16) :
    fill16 (b ++ r) = some (b, r) := by
  have h1 : 16 ≤ (b ++ r).length := by simp [hb]
  unfold fill16
  rw [if_pos h1, ← hb, List.take_left, List.drop_left]

theorem readHeadLoop_hsum (t : List Nat) :
    readHeadLoop (hsumBlock ++ t) = Except.ok t := by
  unfold readHeadLoop
  have hl : (hsumBlock ++ t).length = (15 + t.length) + 1 := by
    simp [hsumBlock]
    omega
  rw [hl]
  unfold readHeadLoopF
  rw [fill16_append _ _ (by rfl)]
  norm_num [hsumBlock]

/-- Claim C1: the claim states that `read_head` verifies the trailing
checksum, failing with an integrity error on any single-byte corruption and
succeeding on unmodified input.  In fact `read_head` never reads the trailing
checksum at all (the source stops at the `TODO: read checksum and compare to
above` comment): for every well-formed header and arbitrary trailing bytes it
returns success and leaves the whole trailer unread, so corrupting the
checksum (or flipping the byte that is the checksum of a changed prefix) is
not detected.  This theorem evaluates the code on such inputs: the result is
`Ok` for every trailer whatsoever. -/
theorem read_head_ignores_trailing_checksum (name trailer : List Nat)
    (h : name.length = 16) :
    read_head (pippinMagic ++ (name ++ (hsumBlock ++ trailer)))
      = Except.ok (name, trailer) := by
  have e1 : fill16 (pippinMagic ++ (name ++ (hsumBlock ++ trailer)))
      = some (pippinMagic, name ++ (hsumBlock ++ trailer)) :=
    fill16_append _ _ (by decide)
  have e2 : fill16 (name ++ (hsumBlock ++ trailer))
      = some (name, hsumBlock ++ trailer) :=
    fill16_append _ _ h
  simp [read_head, e1, e2, readHeadLoop_hsum]

/-- Witness for C1 at a concrete input: a 16-byte name of zeros and a 32-byte
trailer of sevens (which is certainly not the SHA-256 of the preceding
bytes). -/
theorem read_head_ignores_trailing_checksum_witness :
    (List.replicate 16 0).length = 16 ∧
    read_head (pippinMagic ++ (List.replicate 16 0
        ++ (hsumBlock ++ List.replicate 32 7)))
      = Except.ok (List.replicate 16 0, List.replicate 32 7) :=
  ⟨by decide,
   read_head_ignores_trailing_checksum (List.replicate 16 0)
     (List.replicate 32 7) (by decide)⟩

/-- Stream for C9: a well-formed magic and name, then a `Q`-tagged section
with length code `2` (so the claim says the section occupies 16 × 2 = 32
bytes: the tag block plus one 16-byte content block), then the 16 content
bytes (all 255), then the terminating HSUM block. -/
def c9qStream : List Nat :=
  pippinMagic ++ List.replicate 16 0 ++ ([81, 50] ++ List.replicate 14 0)
    ++ List.replicate 16 255 ++ hsumBlock

/-- Stream for the second half of C9: a `Q` section whose length-code byte is
`!` (33), outside the 0-9, A-Z alphabet. -/
def c9badCodeStream : List Nat :=
  pippinMagic ++ List.replicate 16 0 ++ ([81, 33] ++ List.replicate 14 0)
    ++ hsumBlock

/-- Claim C9: the claim says a `Q`-section with length code `x` is skipped in
its entirety (16 × x bytes) with parsing resuming at the next section
boundary, and that a length-code byte outside 0-9, A-Z is an error.  The
second half holds, but the code never skips the section body: `qbuf` is
created with `reserve_exact(16 * x)` (which does not change its length) and
then extended with only the 16 tag bytes, so the fill of `qbuf[16..]` fills
an empty slice and reads nothing.  On `c9qStream` the code therefore
re-reads the section content as the next section header and fails with the
unexpected-contents error instead of succeeding. -/
theorem read_head_q_section_behaviour :
    read_head c9qStream = Except.error HeadError.unexpectedSection ∧
    read_head c9badCodeStream = Except.error HeadError.badLengthCode := by
  constructor <;> decide

/-- Claim C10: for every partition state with zero available elements,
`divide` fails with `NotSubdivisible` (it neither panics nor splits an empty
sample) and returns the repository state - Partition Info table and
classifier view - unchanged. -/
theorem divide_zero_avail {α : Type} (s : SeqRepoState) (part : PartState α)
    (h : part.num_avail = 0) :
    divide s part = (s, Except.error RepoDivideError.NotSubdivisible) := by
  unfold divide
  rw [h]
  norm_num

/-- Witness for C10 at a concrete input. -/
theorem divide_zero_avail_witness :
    (⟨1, ([] : List (Nat × Sequence Unit))⟩ : PartState Unit).num_avail = 0 ∧
    divide ⟨⟨[]⟩, [(1, ⟨10, 0, 0, 100⟩)]⟩ (⟨1, []⟩ : PartState Unit)
      = (⟨⟨[]⟩, [(1, ⟨10, 0, 0, 100⟩)]⟩,
         Except.error RepoDivideError.NotSubdivisible) :=
  ⟨rfl, divide_zero_avail _ _ rfl⟩

/-- Claim C7: for every non-empty partition state (whose sampled lengths fit
in `u32`, i.e. the `assert!` does not fire) whose Partition Info gives a
maximum child identifier with `max_num < old_num + 2`, `divide` fails with
`NotSubdivisible` and returns the Partition Info table unchanged. -/
theorem divide_insufficient_ids {α : Type} (s : SeqRepoState)
    (part : PartState α) (pi : PartInfo)
    (h1 : 1 ≤ part.num_avail)
    (h2 : ∀ l ∈ sampleLens part, l ≤ u32max)
    (h3 : mapGet s.parts part.part_id = some pi)
    (h4 : pi.max_part_id < part.part_id + 2) :
    divide s part = (s, Except.error RepoDivideError.NotSubdivisible) := by
  unfold divide
  rw [if_neg (by omega),
    if_pos (by rw [List.all_eq_true]; intro x hx; exact decide_eq_true (h2 x hx)),
    h3]
  simp only [if_pos h4]

/-- Witness for C7 at a concrete input: one element of length 3, partition 1
with `max_part_id = 2 < 1 + 2`. -/
theorem divide_insufficient_ids_witness :
    1 ≤ (⟨1, [(0, ⟨List.replicate 3 ()⟩)]⟩ : PartState Unit).num_avail ∧
    divide ⟨⟨[]⟩, [(1, ⟨2, 0, 0, 100⟩)]⟩
        (⟨1, [(0, ⟨List.replicate 3 ()⟩)]⟩ : PartState Unit)
      = (⟨⟨[]⟩, [(1, ⟨2, 0, 0, 100⟩)]⟩,
         Except.error RepoDivideError.NotSubdivisible) :=
  ⟨by decide,
   divide_insufficient_ids _ _ ⟨2, 0, 0, 100⟩ (by decide) (by decide) (by decide)
     (by decide)⟩

/-- Claim C6: `read_buf` returns an error for every buffer that does not
begin with the 8-byte tag "SeqCSF01" followed by a 4-byte little-endian
count, or whose total length is not exactly `12 + 28 * count`. -/
theorem read_buf_rejects_malformed (s : SeqRepoState) (buf : List Nat)
    (h : buf.length < 12 ∨ buf.take 8 ≠ tagSeqCSF01
        ∨ buf.length ≠ 12 + 28 * readU32LE (buf.drop 8)) :
    ((read_buf s buf).2).isSome = true := by
  unfold read_buf
  by_cases h12 : buf.length < 12
  · rw [if_pos h12]
    rfl
  · rw [if_neg h12]
    by_cases ht : buf.take 8 ≠ tagSeqCSF01
    · rw [if_pos ht]
      rfl
    · rw [if_neg ht]
      have hn : buf.length ≠ 12 + 28 * readU32LE (buf.drop 8) := by
        rcases h with h | h | h
        · omega
        · exact absurd h ht
        · exact h
      simp only [if_pos hn]
      rfl

/-- Witness for C6 at a concrete input: the empty buffer is too short and is
rejected. -/
theorem read_buf_rejects_malformed_witness :
    (([] : List Nat).length < 12 ∨ ([] : List Nat).take 8 ≠ tagSeqCSF01
        ∨ ([] : List Nat).length ≠ 12 + 28 * readU32LE (([] : List Nat).drop 8)) ∧
    ((read_buf ⟨⟨[]⟩, []⟩ []).2).isSome = true :=
  ⟨Or.inl (by decide), read_buf_rejects_malformed ⟨⟨[]⟩, []⟩ [] (Or.inl (by decide))⟩

/-- Repository state for the C3 counterexample: the only partition (number 1)
serves the length range `[5, 100]` and owns child identifiers up to 10. -/
def divideCexState : SeqRepoState := ⟨⟨[(5, 1)]⟩, [(1, ⟨10, 0, 5, 100⟩)]⟩

/-- Partition state for the C3 counterexample: a single element of length 5,
so the sampled median equals the lower bound of the range. -/
def divideCexPart : PartState Unit := ⟨1, [(0, ⟨List.replicate 5 ()⟩)]⟩

/-- Claim C3 counterexample: `divide` succeeds on this input (one element of
length 5 in a partition with range `[5, 100]`), but the first new Partition
Info gets the range `[5, 4]` - `max_len < min_len`, i.e. the empty interval -
so it is not true that on every successful `divide` both new ranges are
non-empty (nor does their union equal the original range: the point 5 is in
the second range only, and 4 is in neither). -/
theorem divide_ranges_cex :
    (divide divideCexState divideCexPart).2 = Except.ok ([2, 6], []) ∧
    mapGet (divide divideCexState divideCexPart).1.parts 2 = some ⟨5, 0, 5, 4⟩ ∧
    Set.Icc (5 : Nat) 4 = ∅ :=
  ⟨by decide, by decide, Set.Icc_eq_empty (by omega)⟩

theorem mapGet_mapInsert (parts : List (Nat × PartInfo)) (k id : Nat)
    (v : PartInfo) :
    mapGet (mapInsert parts k v) id = if k = id then some v else mapGet parts id := by
  induction parts with
  | nil =>
    simp [mapInsert, mapGet]
  | cons e rest ih =>
    by_cases hek : e.1 = k
    · simp only [mapInsert, if_pos hek, mapGet]
      by_cases hkid : k = id
      · simp [hkid]
      · rw [if_neg hkid, if_neg hkid, if_neg (by omega : ¬ e.1 = id)]
    · simp only [mapInsert, if_neg hek, mapGet]
      by_cases heid : e.1 = id
      · rw [if_pos heid, if_neg (by omega : ¬ k = id), if_pos heid]
      · rw [if_neg heid, if_neg heid, ih]

theorem applyRecord_mono (parts : List (Nat × PartInfo)) (r : Nat × PartInfo)
    (id : Nat) (pi : PartInfo) (h : mapGet parts id = some pi) :
    ∃ pi2, mapGet (applyRecord parts r) id = some pi2 ∧ pi.ver ≤ pi2.ver := by
  unfold applyRecord
  by_cases hr : r.1 = id
  · simp only [hr, h]
    by_cases hv : pi.ver < r.2.ver
    · rw [if_pos hv]
      refine ⟨r.2, ?_, by omega⟩
      rw [mapGet_mapInsert]
      simp [hr]
    · rw [if_neg hv]
      exact ⟨pi, h, Nat.le_refl _⟩
  · refine ⟨pi, ?_, Nat.le_refl _⟩
    cases hg : mapGet parts r.1 with
    | none =>
      simp only [hg]
      rw [mapGet_mapInsert, if_neg hr]
      exact h
    | some q =>
      simp only [hg]
      by_cases hv : q.ver < r.2.ver
      · rw [if_pos hv, mapGet_mapInsert, if_neg hr]
        exact h
      · rw [if_neg hv]
        exact h

theorem foldl_applyRecord_mono (recs : List (Nat × PartInfo)) :
    ∀ (parts : List (Nat × PartInfo)) (id : Nat) (pi : PartInfo),
      mapGet parts id = some pi →
        ∃ pi2, mapGet (recs.foldl applyRecord parts) id = some pi2
          ∧ pi.ver ≤ pi2.ver := by
  induction recs with
  | nil =>
    intro parts id pi h
    exact ⟨pi, h, Nat.le_refl _⟩
  | cons r rest ih =>
    intro parts id pi h
    obtain ⟨q, hq, hvq⟩ := applyRecord_mono parts r id pi h
    obtain ⟨p2, hp2, hvp2⟩ := ih (applyRecord parts r) id q hq
    exact ⟨p2, hp2, Nat.le_trans hvq hvp2⟩

/-- Claim C5: when `read_buf` processes a classifier record for an identifier
already present in the stored table, the stored Partition Info is replaced
exactly when the incoming version is strictly greater than the stored one; a
lower or equal version leaves the entry unchanged.  Consequently, across a
whole `read_buf` call (processing its records in whatever order they arrive
in the buffer), the stored version of an identifier never decreases. -/
theorem read_buf_version_lww :
    (∀ (parts : List (Nat × PartInfo)) (id : Nat) (pi rNew : PartInfo),
      mapGet parts id = some pi →
        mapGet (applyRecord parts (id, rNew)) id
          = if pi.ver < rNew.ver then some rNew else some pi)
    ∧ (∀ (s : SeqRepoState) (buf : List Nat) (id : Nat) (pi : PartInfo),
      mapGet s.parts id = some pi →
        ∃ pi2, mapGet ((read_buf s buf).1).parts id = some pi2
          ∧ pi.ver ≤ pi2.ver) := by
  constructor
  · intro parts id pi rNew h
    unfold applyRecord
    simp only [h]
    by_cases hv : pi.ver < rNew.ver
    · rw [if_pos hv, if_pos hv, mapGet_mapInsert, if_pos rfl]
    · rw [if_neg hv, if_neg hv]
      exact h
  · intro s buf id pi h
    unfold read_buf
    by_cases h12 : buf.length < 12
    · rw [if_pos h12]
      exact ⟨pi, h, Nat.le_refl _⟩
    · rw [if_neg h12]
      by_cases ht : buf.take 8 ≠ tagSeqCSF01
      · rw [if_pos ht]
        exact ⟨pi, h, Nat.le_refl _⟩
      · rw [if_neg ht]
        by_cases hn : buf.length ≠ 12 + 28 * readU32LE (buf.drop 8)
        · simp only [if_pos hn]
          exact ⟨pi, h, Nat.le_refl _⟩
        · simp only [if_neg hn]
          exact foldl_applyRecord_mono _ s.parts id pi h

/-- Witness for C5 at concrete inputs: a stored entry with version 5 and an
incoming record with version 3 for the same identifier 1; the entry is kept,
and across the whole `read_buf` call the stored version does not decrease. -/
theorem read_buf_version_lww_witness :
    mapGet (applyRecord [(1, ⟨10, 5, 0, 100⟩)] (1, ⟨9, 3, 1, 2⟩)) 1
      = some ⟨10, 5, 0, 100⟩
    ∧ ∃ pi2,
        mapGet ((read_buf ⟨⟨[(0, 1)]⟩, [(1, ⟨10, 5, 0, 100⟩)]⟩
            (tagSeqCSF01 ++ [1, 0, 0, 0]
              ++ ([1, 0, 0, 0, 0, 0, 0, 0] ++ [9, 0, 0, 0, 0, 0, 0, 0]
                ++ [3, 0, 0, 0] ++ [1, 0, 0, 0] ++ [2, 0, 0, 0]))).1).parts 1
          = some pi2 ∧ (5 : Nat) ≤ pi2.ver :=
  ⟨(read_buf_version_lww.1 [(1, ⟨10, 5, 0, 100⟩)] 1 ⟨10, 5, 0, 100⟩ ⟨9, 3, 1, 2⟩
      rfl).trans (by decide),
   read_buf_version_lww.2 ⟨⟨[(0, 1)]⟩, [(1, ⟨10, 5, 0, 100⟩)]⟩ _ 1
     ⟨10, 5, 0, 100⟩ rfl⟩

theorem divide_ok_inv {α : Type} (s s2 : SeqRepoState) (part : PartState α)
    (r : List Nat × List Nat)
    (h : divide s part = (s2, Except.ok r)) :
    ∃ pi, mapGet s.parts part.part_id = some pi
      ∧ 1 ≤ part.num_avail
      ∧ (∀ l ∈ sampleLens part, l ≤ u32max)
      ∧ part.part_id + 2 ≤ pi.max_part_id
      ∧ r = ([part.part_id + 1,
              part.part_id + 1 + (pi.max_part_id - part.part_id) / 2], [])
      ∧ s2 = divideCore s part.part_id pi.min_len pi.max_len pi.max_part_id
              (divideMedian part) := by
  unfold divide at h
  split at h
  · simp at h
  · rename_i hna
    split at h
    · rename_i hall
      split at h
      · simp at h
      · rename_i pi hpi
        split at h
        · simp at h
        · rename_i hmax
          simp only [Prod.mk.injEq, Except.ok.injEq] at h
          refine ⟨pi, hpi, by omega, ?_, by omega, h.2.symm, h.1.symm⟩
          intro l hl
          simpa using List.all_eq_true.mp hall l hl
    · simp at h

theorem divideCore_csf (s : SeqRepoState) (old minl maxl maxn med : Nat) :
    (divideCore s old minl maxl maxn med).csf
      = set_classifier (divideCore s old minl maxl maxn med).parts := rfl

theorem divideCore_parts_eq (s : SeqRepoState) (old minl maxl maxn med : Nat)
    (pi : PartInfo) (hpi : mapGet s.parts old = some pi) :
    (divideCore s old minl maxl maxn med).parts
      = mapInsert (mapInsert (mapInsert s.parts
          (old + 1) (divideInfo1 s old maxn minl med))
          (old + 1 + (maxn - old) / 2) (divideInfo2 s old minl maxl maxn med))
          old ⟨old, (pi.ver + 1) % u32mod, pi.min_len, pi.min_len⟩ := by
  have hne1 : ¬ (old + 1 = old) := by omega
  have hne2 : ¬ (old + 1 + (maxn - old) / 2 = old) := by omega
  simp only [divideCore]
  rw [mapGet_mapInsert, if_neg hne2, mapGet_mapInsert, if_neg hne1, hpi]

theorem divideMedian_mem {α : Type} (part : PartState α)
    (hna : 1 ≤ part.num_avail) : divideMedian part ∈ sampleLens part := by
  have hlen : 0 < (sortedLens part).length := by
    simp only [sortedLens, List.length_insertionSort, sampleLens,
      List.length_map, List.length_take]
    have : 1 ≤ part.elt_map.length := hna
    omega
  have hmem : divideMedian part ∈ sortedLens part := by
    unfold divideMedian
    have h2 : (sortedLens part).length / 2 < (sortedLens part).length := by omega
    rw [List.getD_eq_getElem _ _ h2]
    exact List.getElem_mem _
  exact (List.perm_insertionSort _ _).mem_iff.mp hmem

/-- Claim C3 (amended): after `divide` succeeds, the two new Partition Infos
carry the ranges `[min_len, median-1]` and `[median, max_len]`; provided the
sampled median lies strictly above the original `min_len` and at most the
original `max_len`, the two ranges are non-overlapping, their union equals
the original range `[min_len, max_len]`, and neither is empty.  (Without that
proviso the claim fails: see the counterexample, where the median equals
`min_len` and the first range is empty.) -/
theorem divide_ranges_amended {α : Type} (s s2 : SeqRepoState)
    (part : PartState α) (r : List Nat × List Nat) (pi : PartInfo)
    (hpi : mapGet s.parts part.part_id = some pi)
    (h : divide s part = (s2, Except.ok r))
    (hm1 : pi.min_len < divideMedian part)
    (hm2 : divideMedian part ≤ pi.max_len) :
    ∃ i1 i2,
      mapGet s2.parts (part.part_id + 1) = some i1
      ∧ mapGet s2.parts
          (part.part_id + 1 + (pi.max_part_id - part.part_id) / 2) = some i2
      ∧ i1.min_len = pi.min_len ∧ i1.max_len = divideMedian part - 1
      ∧ i2.min_len = divideMedian part ∧ i2.max_len = pi.max_len
      ∧ Disjoint (Set.Icc i1.min_len i1.max_len) (Set.Icc i2.min_len i2.max_len)
      ∧ Set.Icc i1.min_len i1.max_len ∪ Set.Icc i2.min_len i2.max_len
          = Set.Icc pi.min_len pi.max_len
      ∧ (Set.Icc i1.min_len i1.max_len).Nonempty
      ∧ (Set.Icc i2.min_len i2.max_len).Nonempty := by
  obtain ⟨pi2, hpi2, hna, hfit, hmax, hr, hs2⟩ := divide_ok_inv s s2 part r h
  have hpe : pi2 = pi := Option.some.inj (hpi2.symm.trans hpi)
  subst pi2
  have hmu : divideMedian part ≤ u32max := hfit _ (divideMedian_mem part hna)
  have hmed1 : (divideMedian part + u32max) % u32mod = divideMedian part - 1 := by
    unfold u32max u32mod
    unfold u32max at hmu
    omega
  have hne21 : ¬ (part.part_id = part.part_id + 1) := by omega
  have hk2 : ¬ (part.part_id + 1 + (pi.max_part_id - part.part_id) / 2
      = part.part_id + 1) := by
    have : 1 ≤ (pi.max_part_id - part.part_id) / 2 := by omega
    omega
  have hkold2 : ¬ (part.part_id
      = part.part_id + 1 + (pi.max_part_id - part.part_id) / 2) := by omega
  rw [hs2]
  have e1 : mapGet (divideCore s part.part_id pi.min_len pi.max_len
        pi.max_part_id (divideMedian part)).parts (part.part_id + 1)
      = some (divideInfo1 s part.part_id pi.max_part_id pi.min_len
          (divideMedian part)) := by
    rw [divideCore_parts_eq s _ _ _ _ _ pi hpi, mapGet_mapInsert, if_neg hne21,
      mapGet_mapInsert, if_neg hk2, mapGet_mapInsert, if_pos rfl]
  have e2 : mapGet (divideCore s part.part_id pi.min_len pi.max_len
        pi.max_part_id (divideMedian part)).parts
        (part.part_id + 1 + (pi.max_part_id - part.part_id) / 2)
      = some (divideInfo2 s part.part_id pi.min_len pi.max_len pi.max_part_id
          (divideMedian part)) := by
    rw [divideCore_parts_eq s _ _ _ _ _ pi hpi, mapGet_mapInsert, if_neg hkold2,
      mapGet_mapInsert, if_pos rfl]
  refine ⟨_, _, e1, e2, rfl, hmed1, rfl, rfl, ?_, ?_, ?_, ?_⟩
  · simp only [divideInfo1, divideInfo2, hmed1]
    rw [Set.disjoint_left]
    intro x hx1 hx2
    rw [Set.mem_Icc] at hx1 hx2
    omega
  · simp only [divideInfo1, divideInfo2, hmed1]
    ext x
    simp only [Set.mem_union, Set.mem_Icc]
    omega
  · simp only [divideInfo1, hmed1]
    exact ⟨pi.min_len, by rw [Set.mem_Icc]; omega⟩
  · simp only [divideInfo2]
    exact ⟨divideMedian part, by rw [Set.mem_Icc]; omega⟩

/-- Witness for the amended C3 at a concrete input: partition 1 with range
`[0, 100]` and child identifiers up to 10, one element of length 5; the
median 5 lies strictly inside the range, the split succeeds, and the two new
ranges are `[0, 4]` and `[5, 100]`. -/
theorem divide_ranges_amended_witness :
    ∃ i1 i2,
      mapGet (divide ⟨⟨[(0, 1)]⟩, [(1, ⟨10, 0, 0, 100⟩)]⟩
          (⟨1, [(0, ⟨List.replicate 5 ()⟩)]⟩ : PartState Unit)).1.parts 2 = some i1
      ∧ mapGet (divide ⟨⟨[(0, 1)]⟩, [(1, ⟨10, 0, 0, 100⟩)]⟩
          (⟨1, [(0, ⟨List.replicate 5 ()⟩)]⟩ : PartState Unit)).1.parts 6 = some i2
      ∧ i1.min_len = 0
      ∧ i1.max_len = divideMedian (⟨1, [(0, ⟨List.replicate 5 ()⟩)]⟩ : PartState Unit) - 1
      ∧ i2.min_len = divideMedian (⟨1, [(0, ⟨List.replicate 5 ()⟩)]⟩ : PartState Unit)
      ∧ i2.max_len = 100
      ∧ Disjoint (Set.Icc i1.min_len i1.max_len) (Set.Icc i2.min_len i2.max_len)
      ∧ Set.Icc i1.min_len i1.max_len ∪ Set.Icc i2.min_len i2.max_len
          = Set.Icc 0 100
      ∧ (Set.Icc i1.min_len i1.max_len).Nonempty
      ∧ (Set.Icc i2.min_len i2.max_len).Nonempty :=
  divide_ranges_amended
    ⟨⟨[(0, 1)]⟩, [(1, ⟨10, 0, 0, 100⟩)]⟩
    (divide ⟨⟨[(0, 1)]⟩, [(1, ⟨10, 0, 0, 100⟩)]⟩
      (⟨1, [(0, ⟨List.replicate 5 ()⟩)]⟩ : PartState Unit)).1
    (⟨1, [(0, ⟨List.replicate 5 ()⟩)]⟩ : PartState Unit)
    ([2, 6], []) ⟨10, 0, 0, 100⟩ (by decide) (by decide) (by decide) (by decide)

/-- The partition state of the C4 scenario: 999 elements of lengths
1, 2, ..., 999 (element identifiers 0..998), in partition 1. -/
def part999 : PartState Unit :=
  ⟨1, (List.range 999).map (fun i => (i, ⟨List.replicate (i + 1) ()⟩))⟩

theorem sampleLens_part999 : sampleLens part999 = List.range' 1 999 := by
  unfold sampleLens part999 PartState.elt_map
  rw [List.take_of_length_le (by simp), List.map_map]
  have hc : ((fun (e : Nat × Sequence Unit) => e.2.v.length)
      ∘ (fun i => ((i, ⟨List.replicate (i + 1) ()⟩) : Nat × Sequence Unit)))
      = fun i => 1 + i := by
    funext i
    simp [Nat.add_comm]
  rw [hc, List.range'_eq_map_range]

theorem sortedLens_part999 : sortedLens part999 = List.range' 1 999 := by
  unfold sortedLens
  rw [sampleLens_part999]
  exact List.Sorted.insertionSort_eq
    ((List.pairwise_lt_range' 1 999).imp (fun h => Nat.le_of_lt h))

theorem divideMedian_part999 : divideMedian part999 = 500 := by
  unfold divideMedian
  rw [sortedLens_part999]
  have hl : (List.range' 1 999).length = 999 := by simp
  rw [hl]
  norm_num

/-- Claim C4: for a partition holding exactly the 999 elements of lengths
1, 2, ..., 999, `divide` samples all 999 lengths (the sample is the full list
`[1, ..., 999]`), picks median `lens[999/2] = lens[499] = 500`, and the two
new Partition Infos carry the ranges `[original min_len, 499]` and
`[500, original max_len]`.  The hypothesis `s.parts = [(1, pi)]` fixes the
Partition Info table to a single entry for the divided partition, with its
original bounds `pi.min_len` / `pi.max_len` arbitrary, and `3 ≤ max_part_id`
makes the two fresh identifiers available. -/
theorem divide_median_999 (s : SeqRepoState) (pi : PartInfo)
    (hS : s.parts = [(1, pi)]) (h3 : 3 ≤ pi.max_part_id) :
    sampleLens part999 = List.range' 1 999
    ∧ divideMedian part999 = 500
    ∧ divide s part999
        = (divideCore s 1 pi.min_len pi.max_len pi.max_part_id 500,
           Except.ok ([2, 2 + (pi.max_part_id - 1) / 2], []))
    ∧ mapGet (divideCore s 1 pi.min_len pi.max_len pi.max_part_id 500).parts 2
        = some ⟨2 + (pi.max_part_id - 1) / 2 - 1, 0, pi.min_len, 499⟩
    ∧ mapGet (divideCore s 1 pi.min_len pi.max_len pi.max_part_id 500).parts
        (2 + (pi.max_part_id - 1) / 2)
        = some ⟨pi.max_part_id, 0, 500, pi.max_len⟩ := by
  have hpi : mapGet s.parts 1 = some pi := by rw [hS]; simp [mapGet]
  have hid : part999.part_id = 1 := rfl
  have hn2 : 3 ≤ 2 + (pi.max_part_id - 1) / 2 := by omega
  have hv1 : divideVer s.parts 2 = 0 := by
    unfold divideVer
    rw [hS]
    simp [mapGet]
  have hi1 : divideInfo1 s 1 pi.max_part_id pi.min_len 500
      = ⟨2 + (pi.max_part_id - 1) / 2 - 1, 0, pi.min_len, 499⟩ := by
    unfold divideInfo1
    rw [show (1 : Nat) + 1 = 2 from rfl, hv1]
    norm_num [u32max, u32mod]
  have hv2 : divideVer
      (mapInsert s.parts 2 (divideInfo1 s 1 pi.max_part_id pi.min_len 500))
      (2 + (pi.max_part_id - 1) / 2) = 0 := by
    unfold divideVer
    rw [mapGet_mapInsert, if_neg (by omega), hS]
    have h0 : mapGet [(1, pi)] (2 + (pi.max_part_id - 1) / 2) = none := by
      unfold mapGet
      rw [if_neg (by omega)]
      rfl
    rw [h0]
  have hi2 : divideInfo2 s 1 pi.min_len pi.max_len pi.max_part_id 500
      = ⟨pi.max_part_id, 0, 500, pi.max_len⟩ := by
    unfold divideInfo2
    rw [show (1 : Nat) + 1 = 2 from rfl]
    rw [hv2]
  have hna : ¬ part999.num_avail < 1 := by
    norm_num [PartState.num_avail, part999]
  have hall : (sampleLens part999).all (fun l => l ≤ u32max) = true := by
    rw [sampleLens_part999, List.all_eq_true]
    intro x hx
    have h2 := List.mem_range'_1.mp hx
    exact decide_eq_true (by unfold u32max; omega)
  have hlt : ¬ pi.max_part_id < 1 + 2 := by omega
  have ha : ¬ ((1 : Nat) = 2) := by omega
  have hb : ¬ ((2 : Nat) + (pi.max_part_id - 1) / 2 = 2) := by omega
  have hc : ¬ ((1 : Nat) = 2 + (pi.max_part_id - 1) / 2) := by omega
  refine ⟨sampleLens_part999, divideMedian_part999, ?_, ?_, ?_⟩
  · unfold divide
    rw [hid]
    rw [if_neg hna, if_pos hall]
    simp only [hpi]
    rw [if_neg hlt, divideMedian_part999]
  · rw [divideCore_parts_eq s _ _ _ _ _ pi hpi]
    rw [show (1 : Nat) + 1 = 2 from rfl]
    rw [mapGet_mapInsert, if_neg ha, mapGet_mapInsert,
      if_neg hb, mapGet_mapInsert, if_pos rfl, hi1]
  · rw [divideCore_parts_eq s _ _ _ _ _ pi hpi]
    rw [show (1 : Nat) + 1 = 2 from rfl]
    rw [mapGet_mapInsert, if_neg hc, mapGet_mapInsert, if_pos rfl, hi2]

/-- Witness for C4 at a concrete table: partition 1 with range
`[0, 4294967295]`, version 7, child identifiers up to 1000; the split point
is 500 and the new ranges are `[0, 499]` and `[500, 4294967295]`. -/
theorem divide_median_999_witness :
    sampleLens part999 = List.range' 1 999
    ∧ divideMedian part999 = 500
    ∧ divide ⟨⟨[(0, 1)]⟩, [(1, ⟨1000, 7, 0, 4294967295⟩)]⟩ part999
        = (divideCore ⟨⟨[(0, 1)]⟩, [(1, ⟨1000, 7, 0, 4294967295⟩)]⟩
             1 0 4294967295 1000 500,
           Except.ok ([2, 501], []))
    ∧ mapGet (divideCore ⟨⟨[(0, 1)]⟩, [(1, ⟨1000, 7, 0, 4294967295⟩)]⟩
          1 0 4294967295 1000 500).parts 2
        = some ⟨500, 0, 0, 499⟩
    ∧ mapGet (divideCore ⟨⟨[(0, 1)]⟩, [(1, ⟨1000, 7, 0, 4294967295⟩)]⟩
          1 0 4294967295 1000 500).parts 501
        = some ⟨1000, 0, 500, 4294967295⟩ :=
  divide_median_999 ⟨⟨[(0, 1)]⟩, [(1, ⟨1000, 7, 0, 4294967295⟩)]⟩
    ⟨1000, 7, 0, 4294967295⟩ rfl (by decide)

theorem bsGoF_invariant (cs : List (Nat × Nat)) (k : Nat)
    (hmono : ∀ i j : Nat, i ≤ j → j < cs.length →
      (cs.getD i (0, 0)).1 ≤ (cs.getD j (0, 0)).1) :
    ∀ (fuel : Nat), ∀ (base lim : Nat), lim ≤ fuel → base + lim ≤ cs.length →
      (∀ j, j < base → (cs.getD j (0, 0)).1 < k) →
      (∀ j, base + lim ≤ j → j < cs.length → k < (cs.getD j (0, 0)).1) →
      (match bsGoF cs k fuel base lim with
       | Sum.inl i => i < cs.length ∧ (cs.getD i (0, 0)).1 = k
       | Sum.inr p => p ≤ cs.length
           ∧ (∀ j, j < p → (cs.getD j (0, 0)).1 < k)
           ∧ (∀ j, p ≤ j → j < cs.length → k < (cs.getD j (0, 0)).1)) := by
  intro fuel
  induction fuel with
  | zero =>
    intro base lim hlf hbl hlo hhi
    have hl0 : lim = 0 := by omega
    subst hl0
    simp only [bsGoF]
    exact ⟨by omega, hlo, fun j hj hjl => hhi j (by omega) hjl⟩
  | succ fuel ih =>
    intro base lim hlf hbl hlo hhi
    by_cases hl0 : lim = 0
    · subst hl0
      simp only [bsGoF, if_pos rfl]
      exact ⟨by omega, hlo, fun j hj hjl => hhi j (by omega) hjl⟩
    · simp only [bsGoF, if_neg hl0]
      by_cases he : (cs.getD (base + lim / 2) (0, 0)).1 = k
      · simp only [if_pos he]
        exact ⟨by omega, he⟩
      · simp only [if_neg he]
        by_cases hlt : (cs.getD (base + lim / 2) (0, 0)).1 < k
        · simp only [if_pos hlt]
          apply ih (base + lim / 2 + 1) ((lim - 1) / 2) (by omega) (by omega)
          · intro j hj
            by_cases hjb : j < base
            · exact hlo j hjb
            · have hle := hmono j (base + lim / 2) (by omega) (by omega)
              omega
          · intro j hj hjl
            exact hhi j (by omega) hjl
        · simp only [if_neg hlt]
          apply ih base (lim / 2) (by omega) (by omega) hlo
          intro j hj hjl
          by_cases hjh : base + lim ≤ j
          · exact hhi j hjh hjl
          · have hle := hmono (base + lim / 2) j (by omega) hjl
            omega

/-- Claim C2: for every Sequence element and every classifier table with
strictly sorted lower bounds: an exact bound match returns that class's
partition identifier; otherwise, if some lower bound is strictly less than
the element's length, `classify` returns the partition of the largest such
bound; if the length is below every lower bound, `classify` returns `None`;
and the fallback policy is `Fail`.  (The claim says "sorted"; with duplicate
lower bounds - impossible only by convention, since bounds come from distinct
partitions - the phrase "that class's identifier" would be ambiguous, so the
table is assumed strictly sorted.) -/
theorem classify_spec (cs : List (Nat × Nat)) (elt : Sequence α)
    (hs : List.Pairwise (fun a b => a.1 < b.1) cs) :
    (∀ i : Fin cs.length, (cs.get i).1 = elt.v.length →
        classify ⟨cs⟩ elt = some (cs.get i).2)
    ∧ ((∀ i : Fin cs.length, (cs.get i).1 ≠ elt.v.length) →
        (∃ i : Fin cs.length, (cs.get i).1 < elt.v.length) →
        ∃ i : Fin cs.length, classify ⟨cs⟩ elt = some (cs.get i).2
          ∧ (cs.get i).1 < elt.v.length
          ∧ ∀ j : Fin cs.length, (cs.get j).1 < elt.v.length →
              (cs.get j).1 ≤ (cs.get i).1)
    ∧ ((∀ i : Fin cs.length, elt.v.length < (cs.get i).1) →
        classify ⟨cs⟩ elt = none)
    ∧ fallback ⟨cs⟩ = ClassifyFallback.Fail := by
  set k := elt.v.length with hk
  have hgd : ∀ (j : Nat) (hj : j < cs.length),
      cs.get ⟨j, hj⟩ = cs.getD j (0, 0) := by
    intro j hj
    rw [List.getD_eq_getElem _ _ hj, List.get_eq_getElem]
  have hstrict : ∀ i j : Nat, i < j → j < cs.length →
      (cs.getD i (0, 0)).1 < (cs.getD j (0, 0)).1 := by
    intro i j hij hj
    have hp := List.pairwise_iff_get.mp hs ⟨i, by omega⟩ ⟨j, hj⟩ hij
    rw [hgd i (by omega), hgd j hj] at hp
    exact hp
  have hmono : ∀ i j : Nat, i ≤ j → j < cs.length →
      (cs.getD i (0, 0)).1 ≤ (cs.getD j (0, 0)).1 := by
    intro i j hij hj
    rcases Nat.eq_or_lt_of_le hij with h | h
    · rw [h]
    · exact Nat.le_of_lt (hstrict i j h hj)
  have hinv := bsGoF_invariant cs k hmono cs.length 0 cs.length
    (Nat.le_refl _) (by omega) (fun j hj => absurd hj (by omega))
    (fun j h1 h2 => absurd h1 (by omega))
  have hcl : classify ⟨cs⟩ elt
      = (match bsGo cs k 0 cs.length with
         | Sum.inl i => some ((cs.getD i (0, 0)).2)
         | Sum.inr i =>
            if i = 0 then none else some ((cs.getD (i - 1) (0, 0)).2)) := rfl
  have hbg : bsGoF cs k cs.length 0 cs.length = bsGo cs k 0 cs.length := rfl
  rw [hbg] at hinv
  refine ⟨?_, ?_, ?_, rfl⟩
  · rintro ⟨iv, hiv⟩ hik
    rw [hgd iv hiv] at hik
    cases hR : bsGo cs k 0 cs.length with
    | inl j =>
      rw [hR] at hinv
      obtain ⟨hjl, hjk⟩ := hinv
      have hij : j = iv := by
        by_contra hne
        rcases Nat.lt_or_ge j iv with h | h
        · have := hstrict j iv h hiv
          omega
        · have hlt2 : iv < j := by omega
          have := hstrict iv j (by omega) hjl
          omega
      rw [hcl, hR, hgd iv hiv, ← hij]
    | inr p =>
      rw [hR] at hinv
      obtain ⟨hpl, hlo, hhi⟩ := hinv
      rcases Nat.lt_or_ge iv p with h | h
      · have := hlo iv h
        omega
      · have := hhi iv h hiv
        omega
  · intro hne hex
    cases hR : bsGo cs k 0 cs.length with
    | inl j =>
      rw [hR] at hinv
      obtain ⟨hjl, hjk⟩ := hinv
      have h2 := hne ⟨j, hjl⟩
      rw [hgd j hjl] at h2
      exact absurd hjk h2
    | inr p =>
      rw [hR] at hinv
      obtain ⟨hpl, hlo, hhi⟩ := hinv
      obtain ⟨⟨iv, hiv⟩, hi0⟩ := hex
      rw [hgd iv hiv] at hi0
      have hp0 : 0 < p := by
        rcases Nat.lt_or_ge iv p with h | h
        · omega
        · have := hhi iv h hiv
          omega
      have hp1 : p - 1 < cs.length := by omega
      refine ⟨⟨p - 1, hp1⟩, ?_, ?_, ?_⟩
      · simp only [hcl, hR]
        rw [if_neg (by omega : ¬ p = 0), hgd (p - 1) hp1]
      · rw [hgd (p - 1) hp1]
        exact hlo (p - 1) (by omega)
      · rintro ⟨jv, hjv⟩ hj
        rw [hgd jv hjv] at hj
        rw [hgd jv hjv, hgd (p - 1) hp1]
        have hjp : jv < p := by
          rcases Nat.lt_or_ge jv p with h | h
          · exact h
          · have := hhi jv h hjv
            omega
        exact hmono jv (p - 1) (by omega) hp1
  · intro hall
    cases hR : bsGo cs k 0 cs.length with
    | inl j =>
      rw [hR] at hinv
      obtain ⟨hjl, hjk⟩ := hinv
      have h2 := hall ⟨j, hjl⟩
      rw [hgd j hjl] at h2
      omega
    | inr p =>
      rw [hR] at hinv
      obtain ⟨hpl, hlo, hhi⟩ := hinv
      have hp0 : p = 0 := by
        by_contra hne2
        have h1 := hlo (p - 1) (by omega)
        have h2 := hall ⟨p - 1, by omega⟩
        rw [hgd (p - 1) (by omega)] at h2
        omega
      simp only [hcl, hR]
      rw [if_pos hp0]

/-- Witness for C2 at a concrete table `[(0, 1), (5, 2)]`: an element of
length 5 matches the bound 5 exactly and classifies to partition 2; an
element of length 3 sits between the bounds and classifies to partition 1
(largest bound strictly below 3 is 0); an element of length 1 against the
table `[(2, 1), (5, 2)]` is below every bound and classifies to `None`; and
the fallback policy is `Fail`. -/
theorem classify_spec_witness :
    classify ⟨[(0, 1), (5, 2)]⟩ (⟨List.replicate 5 ()⟩ : Sequence Unit) = some 2
    ∧ classify ⟨[(0, 1), (5, 2)]⟩ (⟨List.replicate 3 ()⟩ : Sequence Unit) = some 1
    ∧ classify ⟨[(2, 1), (5, 2)]⟩ (⟨List.replicate 1 ()⟩ : Sequence Unit) = none
    ∧ fallback ⟨[(0, 1), (5, 2)]⟩ = ClassifyFallback.Fail :=
  ⟨(classify_spec [(0, 1), (5, 2)]
      (⟨List.replicate 5 ()⟩ : Sequence Unit) (by decide)).1 ⟨1, by decide⟩
      (by decide),
   by
    obtain ⟨i, hcl, hlt, hmax⟩ := (classify_spec [(0, 1), (5, 2)]
      (⟨List.replicate 3 ()⟩ : Sequence Unit) (by decide)).2.1
      (by decide) ⟨⟨0, by decide⟩, by decide⟩
    have h2 : (([(0, 1), (5, 2)] : List (Nat × Nat)).get i).2 = 1 := by
      have h5 := hmax ⟨0, by decide⟩ (by decide)
      fin_cases i
      · rfl
      · simp at hlt
    rw [hcl, h2],
   (classify_spec [(2, 1), (5, 2)]
      (⟨List.replicate 1 ()⟩ : Sequence Unit) (by decide)).2.2.1
      (by decide),
   (classify_spec [(0, 1), (5, 2)]
      (⟨List.replicate 9 ()⟩ : Sequence Unit) (by decide)).2.2.2⟩

theorem mapInsert_keys_sub (parts : List (Nat × PartInfo)) (k x : Nat)
    (v : PartInfo) :
    x ∈ (mapInsert parts k v).map Prod.fst → x = k ∨ x ∈ parts.map Prod.fst := by
  induction parts with
  | nil =>
    intro h
    simp [mapInsert] at h
    exact Or.inl h
  | cons e rest ih =>
    intro h
    unfold mapInsert at h
    by_cases hek : e.1 = k
    · rw [if_pos hek] at h
      rw [List.map_cons, List.mem_cons] at h
      rcases h with h | h
      · exact Or.inl h
      · right
        rw [List.map_cons, List.mem_cons]
        exact Or.inr h
    · rw [if_neg hek] at h
      rw [List.map_cons, List.mem_cons] at h
      rcases h with h | h
      · right
        rw [List.map_cons, List.mem_cons]
        exact Or.inl h
      · rcases ih h with h2 | h2
        · exact Or.inl h2
        · right
          rw [List.map_cons, List.mem_cons]
          exact Or.inr h2

theorem mapInsert_keys_nodup (parts : List (Nat × PartInfo)) (k : Nat)
    (v : PartInfo) (h : (parts.map Prod.fst).Nodup) :
    ((mapInsert parts k v).map Prod.fst).Nodup := by
  induction parts with
  | nil => simp [mapInsert]
  | cons e rest ih =>
    simp only [List.map_cons, List.nodup_cons] at h
    by_cases hek : e.1 = k
    · unfold mapInsert
      rw [if_pos hek]
      simp only [List.map_cons, List.nodup_cons]
      exact ⟨hek ▸ h.1, h.2⟩
    · unfold mapInsert
      rw [if_neg hek]
      simp only [List.map_cons, List.nodup_cons]
      refine ⟨?_, ih h.2⟩
      intro hmem
      rcases mapInsert_keys_sub rest k e.1 v hmem with h2 | h2
      · exact hek h2
      · exact h.1 h2

theorem mapGet_of_mem (parts : List (Nat × PartInfo)) (id : Nat) (v : PartInfo)
    (hmem : (id, v) ∈ parts) (hnd : (parts.map Prod.fst).Nodup) :
    mapGet parts id = some v := by
  induction parts with
  | nil => cases hmem
  | cons e rest ih =>
    simp only [List.map_cons, List.nodup_cons] at hnd
    rcases List.mem_cons.mp hmem with h | h
    · rw [← h]
      unfold mapGet
      rw [if_pos rfl]
    · unfold mapGet
      by_cases he : e.1 = id
      · exfalso
        apply hnd.1
        rw [he]
        exact List.mem_map.mpr ⟨(id, v), h, rfl⟩
      · rw [if_neg he]
        exact ih h hnd.2

theorem bsGoF_bounds (cs : List (Nat × Nat)) (k : Nat) :
    ∀ (fuel base lim : Nat), base + lim ≤ cs.length →
      (match bsGoF cs k fuel base lim with
       | Sum.inl i => i < cs.length
       | Sum.inr p => p ≤ cs.length) := by
  intro fuel
  induction fuel with
  | zero =>
    intro base lim hbl
    exact (by omega : base ≤ cs.length)
  | succ fuel ih =>
    intro base lim hbl
    by_cases hl0 : lim = 0
    · subst hl0
      simp only [bsGoF, if_pos rfl]
      exact (by omega : base ≤ cs.length)
    · simp only [bsGoF, if_neg hl0]
      by_cases he : (cs.getD (base + lim / 2) (0, 0)).1 = k
      · simp only [if_pos he]
        exact (by omega : base + lim / 2 < cs.length)
      · simp only [if_neg he]
        by_cases hlt : (cs.getD (base + lim / 2) (0, 0)).1 < k
        · simp only [if_pos hlt]
          exact ih _ _ (by omega)
        · simp only [if_neg hlt]
          exact ih _ _ (by omega)

theorem classify_mem (cs : List (Nat × Nat)) {α : Type} (elt : Sequence α)
    (p : Nat) (h : classify ⟨cs⟩ elt = some p) : p ∈ cs.map Prod.snd := by
  have hcl : classify ⟨cs⟩ elt
      = (match bsGo cs elt.v.length 0 cs.length with
         | Sum.inl i => some ((cs.getD i (0, 0)).2)
         | Sum.inr i =>
            if i = 0 then none else some ((cs.getD (i - 1) (0, 0)).2)) := rfl
  have hb := bsGoF_bounds cs elt.v.length cs.length 0 cs.length (by omega)
  have hbg : bsGoF cs elt.v.length cs.length 0 cs.length
      = bsGo cs elt.v.length 0 cs.length := rfl
  rw [hbg] at hb
  cases hR : bsGo cs elt.v.length 0 cs.length with
  | inl i =>
    rw [hR] at hb
    rw [hcl, hR] at h
    have hb2 : i < cs.length := hb
    have h2 : some ((cs.getD i (0, 0)).2) = some p := h
    have hp : p = (cs.getD i (0, 0)).2 := (Option.some.inj h2).symm
    rw [hp, List.getD_eq_getElem _ _ hb2]
    exact List.mem_map.mpr ⟨cs[i], List.getElem_mem hb2, rfl⟩
  | inr i =>
    rw [hR] at hb
    rw [hcl, hR] at h
    have hb2 : i ≤ cs.length := hb
    have h2 : (if i = 0 then none
        else some ((cs.getD (i - 1) (0, 0)).2)) = some p := h
    by_cases hi0 : i = 0
    · rw [if_pos hi0] at h2
      cases h2
    · rw [if_neg hi0] at h2
      have hp : p = (cs.getD (i - 1) (0, 0)).2 := (Option.some.inj h2).symm
      have hlt : i - 1 < cs.length := by omega
      rw [hp, List.getD_eq_getElem _ _ hlt]
      exact List.mem_map.mpr ⟨cs[i - 1], List.getElem_mem hlt, rfl⟩

theorem set_classifier_mem (parts : List (Nat × PartInfo)) (m p : Nat)
    (h : (m, p) ∈ (set_classifier parts).classes) :
    ∃ v, (p, v) ∈ parts ∧ v.min_len < v.max_len ∧ m = v.min_len := by
  have h1 : (m, p) ∈ List.insertionSort (fun a b : Nat × Nat => a.1 ≤ b.1)
      (parts.filterMap (fun e =>
        if e.2.min_len < e.2.max_len then some (e.2.min_len, e.1) else none)) := h
  have h2 := (List.perm_insertionSort (fun a b : Nat × Nat => a.1 ≤ b.1)
    _).mem_iff.mp h1
  obtain ⟨e, he, hfe⟩ := List.mem_filterMap.mp h2
  by_cases hlv : e.2.min_len < e.2.max_len
  · rw [if_pos hlv] at hfe
    obtain ⟨hm, hp⟩ := Prod.mk.injEq _ _ _ _ ▸ Option.some.inj hfe
    refine ⟨e.2, ?_, hlv, hm.symm⟩
    rw [← hp]
    simpa using he
  · rw [if_neg hlv] at hfe
    cases hfe

/-- Claim C8: after `divide` succeeds, the original partition's Info has its
range collapsed to empty (`max_len = min_len`) with its version incremented,
the recomputed classifier table excludes it, and no element ever classifies
to the divided partition's identifier.  Hypotheses: the key set of the table
is duplicate-free (automatic for a `HashMap`), the divided partition has an
Info entry, and its version is below `u32::MAX` (so the wrapping increment is
an increment). -/
theorem divide_retires_old {α : Type} (s s2 : SeqRepoState) (part : PartState α)
    (r : List Nat × List Nat) (pi : PartInfo)
    (hnd : (s.parts.map Prod.fst).Nodup)
    (hpi : mapGet s.parts part.part_id = some pi)
    (hver : pi.ver < u32max)
    (h : divide s part = (s2, Except.ok r)) :
    mapGet s2.parts part.part_id
      = some ⟨part.part_id, pi.ver + 1, pi.min_len, pi.min_len⟩
    ∧ (∀ m, (m, part.part_id) ∉ s2.csf.classes)
    ∧ ∀ {β : Type} (elt : Sequence β), classify s2.csf elt ≠ some part.part_id := by
  obtain ⟨pi2, hpi2, hna, hfit, hmax, hr, hs2⟩ := divide_ok_inv s s2 part r h
  have hpe : pi2 = pi := Option.some.inj (hpi2.symm.trans hpi)
  subst pi2
  have hvv : (pi.ver + 1) % u32mod = pi.ver + 1 := by
    unfold u32max at hver
    unfold u32mod
    omega
  have hdead : mapGet s2.parts part.part_id
      = some ⟨part.part_id, pi.ver + 1, pi.min_len, pi.min_len⟩ := by
    rw [hs2, divideCore_parts_eq s _ _ _ _ _ pi hpi, mapGet_mapInsert,
      if_pos rfl, hvv]
  have hnod2 : (s2.parts.map Prod.fst).Nodup := by
    rw [hs2, divideCore_parts_eq s _ _ _ _ _ pi hpi]
    exact mapInsert_keys_nodup _ _ _
      (mapInsert_keys_nodup _ _ _ (mapInsert_keys_nodup _ _ _ hnd))
  have hcsf : s2.csf = set_classifier s2.parts := by
    rw [hs2]
    rfl
  have hnotin : ∀ m, (m, part.part_id) ∉ s2.csf.classes := by
    intro m hmem
    rw [hcsf] at hmem
    obtain ⟨v, hvmem, hlive, hm⟩ := set_classifier_mem s2.parts m part.part_id hmem
    have hvg := mapGet_of_mem s2.parts part.part_id v hvmem hnod2
    rw [hdead] at hvg
    have hveq : v = ⟨part.part_id, pi.ver + 1, pi.min_len, pi.min_len⟩ :=
      Option.some.inj hvg.symm
    rw [hveq] at hlive
    exact absurd hlive (by simp)
  refine ⟨hdead, hnotin, ?_⟩
  intro β elt hcl
  have hmem := classify_mem s2.csf.classes elt part.part_id hcl
  obtain ⟨q, hq, hq2⟩ := List.mem_map.mp hmem
  obtain ⟨q1, q2⟩ := q
  simp only at hq2
  subst hq2
  exact hnotin q1 hq

/-- Witness for C8 at a concrete input: partition 1 with range `[0, 100]`,
version 4, child identifiers up to 10, one element of length 5.  After the
split its stored Info is `(1, 5, 0, 0)` - range collapsed, version bumped -
it is absent from the classifier view, and a sample element (length 7) does
not classify to it. -/
theorem divide_retires_old_witness :
    mapGet (divide ⟨⟨[(0, 1)]⟩, [(1, ⟨10, 4, 0, 100⟩)]⟩
        (⟨1, [(0, ⟨List.replicate 5 ()⟩)]⟩ : PartState Unit)).1.parts 1
      = some ⟨1, 5, 0, 0⟩
    ∧ (7, 1) ∉ (divide ⟨⟨[(0, 1)]⟩, [(1, ⟨10, 4, 0, 100⟩)]⟩
        (⟨1, [(0, ⟨List.replicate 5 ()⟩)]⟩ : PartState Unit)).1.csf.classes
    ∧ classify (divide ⟨⟨[(0, 1)]⟩, [(1, ⟨10, 4, 0, 100⟩)]⟩
        (⟨1, [(0, ⟨List.replicate 5 ()⟩)]⟩ : PartState Unit)).1.csf
        (⟨List.replicate 7 ()⟩ : Sequence Unit) ≠ some 1 := by
  have hmain := divide_retires_old
    ⟨⟨[(0, 1)]⟩, [(1, ⟨10, 4, 0, 100⟩)]⟩
    (divide ⟨⟨[(0, 1)]⟩, [(1, ⟨10, 4, 0, 100⟩)]⟩
      (⟨1, [(0, ⟨List.replicate 5 ()⟩)]⟩ : PartState Unit)).1
    (⟨1, [(0, ⟨List.replicate 5 ()⟩)]⟩ : PartState Unit)
    ([2, 6], []) ⟨10, 4, 0, 100⟩ (by decide) (by decide) (by decide) (by decide)
  exact ⟨hmain.1, hmain.2.1 7, hmain.2.2 (⟨List.replicate 7 ()⟩ : Sequence Unit)⟩
